import Mathlib

/-!
# Verification of the discrete-event simulation book repository

Shallow embedding of the repository's code (`bank.py`, `post.py`,
`process_interaction.py`, `car.py`) and of the discrete-event simulation
kernel the spec describes.  The domain scripts under `src/` are embedded
directly from their source; the kernel (scheduler, events, store,
combinators, interruption) is not part of `src/` — it is the external
simulation facility the scripts build on — so its operations are modelled
from the spec's own description and the claims are settled against that
model.
-/

/-! ## Client statistics (bank.py, lines 24-31 and 247-271) -/

/-- Embeds the reporting-relevant fields of `Client` (bank.py):
`satisfied`, `waiting_time`, `total_time`. -/
structure ClientR where
  satisfied : Bool
  waiting_time : ℚ
  total_time : ℚ

/-- Embeds `Bank.get_number_of_clients` (bank.py line 250):
`len(self.clients)`. -/
def get_number_of_clients (clients : List ClientR) : ℕ :=
  clients.length

/-- Embeds `Bank.get_number_of_satisfied_clients` (bank.py line 255):
`len([c for c in self.clients if c.satisfied])`. -/
def get_number_of_satisfied_clients (clients : List ClientR) : ℕ :=
  (clients.filter (fun c => c.satisfied)).length

/-- Embeds `Bank.get_number_of_unsatisfied_clients` (bank.py line 260):
`len(self.clients) - self.get_number_of_satisfied_clients()`. -/
def get_number_of_unsatisfied_clients (clients : List ClientR) : ℕ :=
  clients.length - get_number_of_satisfied_clients clients

/-- Python division: raises `ZeroDivisionError` on a zero divisor. -/
def pyDiv (a b : ℚ) : Except String ℚ :=
  if b = 0 then .error "ZeroDivisionError" else .ok (a / b)

/-- Embeds `Bank.get_average_waiting_time` (bank.py line 265):
`sum([c.waiting_time for c in self.clients]) / len(self.clients)` —
the division is unguarded. -/
def get_average_waiting_time (clients : List ClientR) : Except String ℚ :=
  pyDiv (clients.map (fun c => c.waiting_time)).sum (clients.length : ℚ)

/-- Embeds `Bank.get_average_total_time` (bank.py lines 270-271):
`sum(satisfied) / len(satisfied) if satisfied else 0` — guarded. -/
def get_average_total_time (clients : List ClientR) : Except String ℚ :=
  let satisfied := (clients.filter (fun c => c.satisfied)).map
    (fun c => c.total_time)
  if satisfied.isEmpty then .ok 0
  else pyDiv satisfied.sum (satisfied.length : ℚ)

/-! ## One-shot events (spec section 4.2; used by bank.py Worker) -/

/-- Error taxonomy of the kernel (spec section 7). -/
inductive DesError where
  | doubleFire
  | interruptSignal
deriving DecidableEq

/-- Modelled from the spec: the kernel's one-shot `Event`
(spec section 3 and 4.2) — `{ fired: bool, value: optional payload }`;
the waiters list is treated separately where a claim needs it. -/
structure DEvent (α : Type) where
  fired : Bool
  value : Option α
deriving DecidableEq

/-- A fresh, unfired event (`env.event()` in bank.py). -/
def DEvent.fresh (α : Type) : DEvent α :=
  { fired := false, value := none }

/-- Modelled from the spec: `Event.succeed(value)` transitions the event to
fired exactly once; calling it on an already-fired event signals
`DoubleFireError` (spec section 4.2). -/
def DEvent.succeed (e : DEvent α) (v : α) : Except DesError (DEvent α) :=
  if e.fired then .error .doubleFire
  else .ok { fired := true, value := some v }

/-- Modelled from the spec: `Event.fail(error)` transitions the event to
fired exactly once; calling it on an already-fired event signals
`DoubleFireError` (spec section 4.2). -/
def DEvent.fail (e : DEvent α) : Except DesError (DEvent α) :=
  if e.fired then .error .doubleFire
  else .ok { fired := true, value := none }

/-- A worker that fires one event per cycle and installs a fresh event
after each fire, as `Worker.work` (bank.py lines 127-131) and
`Worker.service` (lines 146-147) do: `self.start_event.succeed(self);
self.start_event = self.env.event()`. Returns the events fired. -/
def workerFireCycles (wid : ℕ) : ℕ → DEvent ℕ → Except DesError (List (DEvent ℕ))
  | 0, _ => .ok []
  | n + 1, e =>
    match e.succeed wid with
    | .error err => .error err
    | .ok firedE =>
      match workerFireCycles wid n (DEvent.fresh ℕ) with
      | .error err => .error err
      | .ok rest => .ok (firedE :: rest)

/-- The faulty variant that reuses the fired event instead of installing a
fresh one: fires the same event on every cycle. -/
def workerFireCyclesReuse (wid : ℕ) : ℕ → DEvent ℕ → Except DesError (List (DEvent ℕ))
  | 0, _ => .ok []
  | n + 1, e =>
    match e.succeed wid with
    | .error err => .error err
    | .ok firedE =>
      match workerFireCyclesReuse wid n firedE with
      | .error err => .error err
      | .ok rest => .ok (firedE :: rest)

/-! ## Worker shift end (bank.py, Worker.service lines 133-152 and
Bank._free_workers lines 210-220) -/

/-- Embeds the completion step of `Worker.service` (bank.py lines 140-152):
after serving, the client is appended to the worker's list, and the freed
event fires iff `env.now < self.when_end` (the source reads the global
`env`, which is the same environment instance as `self.env`).  Returns the
new clients list and whether `get_free_event.succeed(self)` ran. -/
def serviceComplete (now when_end : ℚ) (clients : List ℕ) (cid : ℕ) :
    List ℕ × Bool :=
  (clients ++ [cid], decide (now < when_end))

/-- Embeds the re-put step of `Bank._free_workers` (bank.py lines 210-220):
every worker whose `get_free_event` fired is `put` back into the shared
`workers` store. -/
def freeWorkersStep (store : List ℕ) (wid : ℕ) (freedFired : Bool) :
    List ℕ :=
  if freedFired then store ++ [wid] else store

/-! ## Clock and scheduler (spec sections 3 and 4.1) -/

/-- Modelled from the spec: a Scheduled Entry
`(fire_time, insertion_sequence, event)` (spec section 3); `eid` names the
event and `val` its payload. -/
structure Entry where
  fire_time : ℚ
  seq : ℕ
  eid : ℕ
  val : ℕ
deriving DecidableEq

/-- Strict ordering on the key `(fire_time, insertion_sequence)`
(spec section 3). -/
def entryBefore (a b : Entry) : Bool :=
  decide (a.fire_time < b.fire_time) ||
    (decide (a.fire_time = b.fire_time) && decide (a.seq < b.seq))

/-- Modelled from the spec: the scheduler "pops the earliest entry"
(spec section 4.1) — the minimum of the pending queue under the
`(fire_time, insertion_sequence)` key. -/
def popEarliest : List Entry → Option (Entry × List Entry)
  | [] => none
  | e :: es =>
    match popEarliest es with
    | none => some (e, [])
    | some (m, rest) =>
      if entryBefore m e then some (m, e :: rest) else some (e, es)

theorem popEarliest_none_iff (l : List Entry) :
    popEarliest l = none ↔ l = [] := by
  cases l with
  | nil => simp [popEarliest]
  | cons e es =>
    simp only [popEarliest]
    cases h : popEarliest es with
    | none => simp
    | some p =>
      obtain ⟨m, rest⟩ := p
      by_cases hb : entryBefore m e <;> simp [hb]

theorem popEarliest_perm (l : List Entry) (e : Entry) (rest : List Entry)
    (h : popEarliest l = some (e, rest)) : l.Perm (e :: rest) := by
  induction l generalizing e rest with
  | nil => simp [popEarliest] at h
  | cons a as ih =>
    simp only [popEarliest] at h
    cases hp : popEarliest as with
    | none =>
      rw [hp] at h
      rw [(popEarliest_none_iff as).mp hp]
      cases h
      exact List.Perm.refl _
    | some p =>
      obtain ⟨m, mrest⟩ := p
      rw [hp] at h
      dsimp only at h
      by_cases hbm : entryBefore m a
      · rw [if_pos hbm] at h
        simp only [Option.some.injEq, Prod.mk.injEq] at h
        obtain ⟨he, hr⟩ := h
        subst he; subst hr
        exact ((ih _ _ hp).cons a).trans (List.Perm.swap _ a mrest)
      · rw [if_neg hbm] at h
        simp only [Option.some.injEq, Prod.mk.injEq] at h
        obtain ⟨he, hr⟩ := h
        subst he; subst hr
        exact List.Perm.refl _

/-- Non-strict entry ordering: the popped entry is no later than anything
left behind. -/
def entryLe (a b : Entry) : Prop :=
  a.fire_time ≤ b.fire_time ∧ (a.fire_time = b.fire_time → a.seq ≤ b.seq)

theorem not_entryBefore_iff (a b : Entry) :
    entryBefore a b = false ↔ entryLe b a := by
  unfold entryBefore entryLe
  constructor
  · intro h
    simp only [Bool.or_eq_false_iff, Bool.and_eq_false_iff,
      decide_eq_false_iff_not] at h
    obtain ⟨h1, h2⟩ := h
    constructor
    · exact le_of_not_lt h1
    · intro heq
      cases h2 with
      | inl h2 => exact absurd heq.symm h2
      | inr h2 => exact Nat.le_of_not_lt h2
  · intro ⟨h1, h2⟩
    simp only [Bool.or_eq_false_iff, Bool.and_eq_false_iff,
      decide_eq_false_iff_not]
    refine ⟨not_lt_of_le h1, ?_⟩
    by_cases heq : a.fire_time = b.fire_time
    · exact Or.inr (Nat.not_lt_of_le (h2 heq.symm))
    · exact Or.inl heq

theorem entryLe_trans {a b c : Entry} (h1 : entryLe a b) (h2 : entryLe b c) :
    entryLe a c := by
  obtain ⟨h1t, h1s⟩ := h1
  obtain ⟨h2t, h2s⟩ := h2
  refine ⟨le_trans h1t h2t, fun heq => ?_⟩
  have hab : a.fire_time = b.fire_time :=
    le_antisymm h1t (heq ▸ h2t)
  have hbc : b.fire_time = c.fire_time := hab ▸ heq
  exact le_trans (h1s hab) (h2s hbc)

theorem entryBefore_imp_le {a b : Entry} (h : entryBefore a b = true) :
    entryLe a b := by
  unfold entryBefore at h
  simp only [Bool.or_eq_true, Bool.and_eq_true, decide_eq_true_eq] at h
  rcases h with h1 | ⟨h1, h2⟩
  · exact ⟨le_of_lt h1, fun heq => absurd heq.symm (ne_of_gt h1)⟩
  · exact ⟨le_of_eq h1, fun _ => le_of_lt h2⟩

theorem popEarliest_min (l : List Entry) (e : Entry) (rest : List Entry)
    (h : popEarliest l = some (e, rest)) :
    ∀ x ∈ rest, entryLe e x := by
  induction l generalizing e rest with
  | nil => simp [popEarliest] at h
  | cons a as ih =>
    simp only [popEarliest] at h
    cases hp : popEarliest as with
    | none =>
      rw [hp] at h
      cases h
      simp
    | some p =>
      obtain ⟨m, mrest⟩ := p
      rw [hp] at h
      dsimp only at h
      by_cases hbm : entryBefore m a
      · rw [if_pos hbm] at h
        simp only [Option.some.injEq, Prod.mk.injEq] at h
        obtain ⟨he, hr⟩ := h
        subst he; subst hr
        intro x hx
        rcases List.mem_cons.mp hx with hxa | hxr
        · subst hxa
          exact entryBefore_imp_le hbm
        · exact ih _ _ hp x hxr
      · rw [if_neg hbm] at h
        simp only [Option.some.injEq, Prod.mk.injEq] at h
        obtain ⟨he, hr⟩ := h
        subst he; subst hr
        intro x hx
        have hperm := popEarliest_perm as m mrest hp
        have hxm : x = m ∨ x ∈ mrest := by
          have := hperm.mem_iff.mp hx
          simpa using this
        have haem : entryLe a m :=
          (not_entryBefore_iff m a).mp (Bool.eq_false_iff.mpr hbm)
        rcases hxm with hxm | hxm
        · subst hxm; exact haem
        · exact entryLe_trans haem (ih m mrest hp x hxm)

theorem popEarliest_length (l : List Entry) (e : Entry) (rest : List Entry)
    (h : popEarliest l = some (e, rest)) : rest.length < l.length := by
  have := (popEarliest_perm l e rest h).length_eq
  simp only [List.length_cons] at this
  omega

/-- Modelled from the spec: one round of `run_until(t_end)` (spec section
4.1), written with a fuel argument for structural recursion; `popEarliest`
shrinks the queue by exactly one entry, so fuel `pending.length` is always
enough.  The scheduler repeatedly pops the earliest pending entry; if its
fire time exceeds `t_end` it stops without firing it; otherwise it advances
the clock to that fire time and fires the entry.  Returns the final clock
value and the fired entries in firing order. -/
def runAux : ℕ → ℚ → ℚ → List Entry → ℚ × List Entry
  | 0, _, now, _ => (now, [])
  | n + 1, t_end, now, pending =>
    match popEarliest pending with
    | none => (now, [])
    | some (e, rest) =>
      if t_end < e.fire_time then (now, [])
      else
        let r := runAux n t_end e.fire_time rest
        (r.1, e :: r.2)

/-- Modelled from the spec: `run_until(t_end)` (spec section 4.1). -/
def run_until (t_end now : ℚ) (pending : List Entry) : ℚ × List Entry :=
  runAux pending.length t_end now pending

theorem runAux_subset (t_end : ℚ) (n : ℕ) :
    ∀ (now : ℚ) (pending : List Entry),
      ∀ x ∈ (runAux n t_end now pending).2, x ∈ pending := by
  induction n with
  | zero => intro now pending x hx; simp [runAux] at hx
  | succ n ih =>
    intro now pending x hx
    rw [runAux] at hx
    cases hp : popEarliest pending with
    | none => rw [hp] at hx; simp at hx
    | some p =>
      obtain ⟨e, rest⟩ := p
      rw [hp] at hx
      dsimp only at hx
      by_cases ht : t_end < e.fire_time
      · rw [if_pos ht] at hx; simp at hx
      · rw [if_neg ht] at hx
        have hperm := popEarliest_perm pending e rest hp
        rcases List.mem_cons.mp hx with hxe | hxr
        · subst hxe
          exact hperm.mem_iff.mpr (List.mem_cons_self _ _)
        · exact hperm.mem_iff.mpr
            (List.mem_cons_of_mem _ (ih e.fire_time rest x hxr))

theorem runAux_sorted (t_end : ℚ) (n : ℕ) :
    ∀ (now : ℚ) (pending : List Entry),
      List.Pairwise entryLe (runAux n t_end now pending).2 := by
  induction n with
  | zero => intro now pending; simp [runAux]
  | succ n ih =>
    intro now pending
    rw [runAux]
    cases hp : popEarliest pending with
    | none => simp
    | some p =>
      obtain ⟨e, rest⟩ := p
      dsimp only
      by_cases ht : t_end < e.fire_time
      · simp [ht]
      · rw [if_neg ht]
        refine List.Pairwise.cons ?_ (ih e.fire_time rest)
        intro x hx
        exact popEarliest_min pending e rest hp x
          (runAux_subset t_end n e.fire_time rest x hx)

/-- The fired entries come out sorted by the `(fire_time, seq)` key. -/
theorem run_until_sorted (t_end now : ℚ) (pending : List Entry) :
    List.Pairwise entryLe (run_until t_end now pending).2 :=
  runAux_sorted t_end pending.length now pending

theorem runAux_perm (t_end : ℚ) (n : ℕ) :
    ∀ (now : ℚ) (pending : List Entry), pending.length ≤ n →
      (∀ x ∈ pending, x.fire_time ≤ t_end) →
      (runAux n t_end now pending).2.Perm pending := by
  induction n with
  | zero =>
    intro now pending hlen _
    have : pending = [] := List.length_eq_zero.mp (Nat.le_zero.mp hlen)
    subst this
    simp [runAux]
  | succ n ih =>
    intro now pending hlen hall
    rw [runAux]
    cases hp : popEarliest pending with
    | none =>
      rw [(popEarliest_none_iff pending).mp hp]
    | some p =>
      obtain ⟨e, rest⟩ := p
      dsimp only
      have hperm := popEarliest_perm pending e rest hp
      have hmeme : e ∈ pending := hperm.mem_iff.mpr (List.mem_cons_self _ _)
      have ht : ¬ t_end < e.fire_time := not_lt_of_le (hall e hmeme)
      rw [if_neg ht]
      have hrlen : rest.length ≤ n := by
        have := popEarliest_length pending e rest hp
        omega
      have hrall : ∀ x ∈ rest, x.fire_time ≤ t_end := fun x hx =>
        hall x (hperm.mem_iff.mpr (List.mem_cons_of_mem _ hx))
      exact ((ih e.fire_time rest hrlen hrall).cons e).trans hperm.symm

/-- When every pending entry is due by `t_end`, the run fires exactly the
pending entries (a permutation of them). -/
theorem run_until_perm (t_end now : ℚ) (pending : List Entry)
    (hall : ∀ x ∈ pending, x.fire_time ≤ t_end) :
    (run_until t_end now pending).2.Perm pending :=
  runAux_perm t_end pending.length now pending le_rfl hall

theorem run_until_subset (t_end now : ℚ) (pending : List Entry) :
    ∀ x ∈ (run_until t_end now pending).2, x ∈ pending :=
  runAux_subset t_end pending.length now pending

/-- Modelled from the spec: the scheduler context — the clock `now`, the
insertion-sequence counter, and the pending queue (spec sections 3, 4.1). -/
structure Sched where
  now : ℚ
  seqc : ℕ
  pending : List Entry

/-- Modelled from the spec: `schedule(delay, event)` inserts a Scheduled
Entry at `now + delay`, stamped with the next insertion sequence number
(spec sections 3 and 4.1). -/
def schedule (s : Sched) (delay : ℚ) (eid val : ℕ) : Sched :=
  { s with
    pending := s.pending ++ [⟨s.now + delay, s.seqc, eid, val⟩],
    seqc := s.seqc + 1 }

/-- A whole sequence of `schedule` calls, issued one after another. -/
def scheduleAll (s : Sched) : List (ℚ × ℕ × ℕ) → Sched
  | [] => s
  | c :: cs => scheduleAll (schedule s c.1 c.2.1 c.2.2) cs

/-- Modelled from the spec: `race(e1, e2)` (spec section 4.4) observed over
the scheduler's fired-entry log: the race fires the instant the first
constituent fires, and its value reports every constituent that fired at
that same virtual time. -/
def raceResult (fired : List Entry) (id1 id2 : ℕ) : Option (ℚ × List ℕ) :=
  match fired.find? (fun e => e.eid = id1 || e.eid = id2) with
  | none => none
  | some e =>
    some (e.fire_time,
      (fired.filter (fun x => (x.eid = id1 || x.eid = id2) &&
        decide (x.fire_time = e.fire_time))).map (fun x => x.eid))

/-- Modelled from the spec: `any_of(events)` (spec section 4.4) observed
over the scheduler's fired-entry log: it fires once the first input fires,
and its value is the mapping (as an association list, event id to payload)
of every input that fired at that same scheduled virtual time. -/
def anyOfResult (fired : List Entry) (ids : List ℕ) :
    Option (ℚ × List (ℕ × ℕ)) :=
  match fired.find? (fun e => ids.contains e.eid) with
  | none => none
  | some e =>
    some (e.fire_time,
      (fired.filter (fun x => ids.contains x.eid &&
        decide (x.fire_time = e.fire_time))).map (fun x => (x.eid, x.val)))

/-- Embeds the body of `Bank._add_workers` (bank.py lines 197-208): every
worker in the `any_of` value is `put` into the `workers` store (no getter
is waiting in the studied scenario, so each put appends its token). -/
def addWorkersStep (store : List ℕ) (anyOfValue : List (ℕ × ℕ)) : List ℕ :=
  store ++ anyOfValue.map (fun p => p.2)

/-- C3: for every sequence of `schedule` calls, `run_until` fires events at
non-decreasing virtual times, and among entries scheduled for the same
virtual time, in the order of their insertion into the pending queue
(the `seq` stamp is the insertion sequence assigned by `schedule`); the run
is a pure function of the schedule calls, hence deterministic for a fixed
seed and program structure. -/
theorem scheduler_fires_in_order (t0 t_end : ℚ) (calls : List (ℚ × ℕ × ℕ)) :
    List.Pairwise
      (fun a b : Entry =>
        a.fire_time ≤ b.fire_time ∧
          (a.fire_time = b.fire_time → a.seq ≤ b.seq))
      (run_until t_end t0 (scheduleAll ⟨t0, 0, []⟩ calls).pending).2 :=
  run_until_sorted t_end t0 (scheduleAll ⟨t0, 0, []⟩ calls).pending

theorem run_two (t_end T1 T2 : ℚ) (v1 v2 : ℕ)
    (h1 : T1 ≤ t_end) (h2 : T2 ≤ t_end) :
    (run_until t_end 0 [⟨T1, 0, 1, v1⟩, ⟨T2, 1, 2, v2⟩]).2 =
      if T2 < T1 then [⟨T2, 1, 2, v2⟩, ⟨T1, 0, 1, v1⟩]
      else [⟨T1, 0, 1, v1⟩, ⟨T2, 1, 2, v2⟩] := by
  by_cases hlt : T2 < T1
  · simp [run_until, runAux, popEarliest, entryBefore, hlt,
      not_lt.mpr h1, not_lt.mpr h2]
  · simp [run_until, runAux, popEarliest, entryBefore, hlt,
      not_lt.mpr h1, not_lt.mpr h2]

/-- C4: with `e1` scheduled to fire at T1 (ids 1) and `e2` at T2 (id 2),
the race fires at `min(T1, T2)`; when T1 = T2 both constituents are
reported; and both constituents' own entries remain in the fired log — the
loser still fires later for any other waiter. -/
theorem race_min_tie_loser (T1 T2 t_end : ℚ) (v1 v2 : ℕ)
    (h1 : T1 ≤ t_end) (h2 : T2 ≤ t_end) :
    raceResult (run_until t_end 0 [⟨T1, 0, 1, v1⟩, ⟨T2, 1, 2, v2⟩]).2 1 2 =
      some (min T1 T2,
        if T1 = T2 then [1, 2] else if T1 < T2 then [1] else [2]) ∧
    (⟨T1, 0, 1, v1⟩ : Entry) ∈
      (run_until t_end 0 [⟨T1, 0, 1, v1⟩, ⟨T2, 1, 2, v2⟩]).2 ∧
    (⟨T2, 1, 2, v2⟩ : Entry) ∈
      (run_until t_end 0 [⟨T1, 0, 1, v1⟩, ⟨T2, 1, 2, v2⟩]).2 := by
  rw [run_two t_end T1 T2 v1 v2 h1 h2]
  rcases lt_trichotomy T1 T2 with hlt | heq | hgt
  · rw [if_neg (not_lt_of_lt hlt)]
    refine ⟨?_, by simp, by simp⟩
    simp [raceResult, List.find?, List.filter, ne_of_lt hlt,
      (ne_of_lt hlt).symm, min_eq_left (le_of_lt hlt), hlt]
  · subst heq
    rw [if_neg (lt_irrefl T1)]
    refine ⟨?_, by simp, by simp⟩
    simp [raceResult, List.find?, List.filter]
  · rw [if_pos hgt]
    refine ⟨?_, by simp, by simp⟩
    simp [raceResult, List.find?, List.filter, ne_of_gt hgt,
      (ne_of_gt hgt).symm, min_eq_right (le_of_lt hgt),
      not_lt_of_lt hgt, hgt]

/-- C6: for a non-empty collection of input events (all due by `t_end`),
`any_of` fires once the first input fires: at a time `t` that is the
earliest input fire time, and its value maps every input that fired at
that same scheduled virtual time — simultaneous fires are all reported
together; consequently `_add_workers` puts each simultaneously started
worker into the store. -/
theorem anyOf_reports_all_simultaneous (t_end now : ℚ) (pending : List Entry)
    (store : List ℕ)
    (hne : pending ≠ [])
    (hall : ∀ x ∈ pending, x.fire_time ≤ t_end) :
    ∃ t rep,
      anyOfResult (run_until t_end now pending).2
        (pending.map (fun e => e.eid)) = some (t, rep) ∧
      (∀ x ∈ pending, t ≤ x.fire_time) ∧
      (∃ x ∈ pending, x.fire_time = t) ∧
      (∀ x ∈ pending, x.fire_time = t → (x.eid, x.val) ∈ rep) ∧
      (∀ x ∈ pending, x.fire_time = t → x.val ∈ addWorkersStep store rep) := by
  have hperm := run_until_perm t_end now pending hall
  have hsort := run_until_sorted t_end now pending
  cases hcf : (run_until t_end now pending).2 with
  | nil =>
    rw [hcf] at hperm
    exact absurd hperm.symm.eq_nil hne
  | cons f ftail =>
    rw [hcf] at hperm hsort
    have hfmem : f ∈ pending := hperm.mem_iff.mp (List.mem_cons_self f ftail)
    have hpred : ((pending.map (fun e => e.eid)).contains f.eid) = true := by
      simp only [List.contains_iff_exists_mem_beq, List.mem_map]
      exact ⟨f.eid, ⟨f, hfmem, rfl⟩, by simp⟩
    refine ⟨f.fire_time,
      ((f :: ftail).filter (fun x =>
        (pending.map (fun e => e.eid)).contains x.eid &&
          decide (x.fire_time = f.fire_time))).map (fun x => (x.eid, x.val)),
      ?_, ?_, ?_, ?_, ?_⟩
    · have hfind : List.find?
          (fun e => (pending.map (fun e => e.eid)).contains e.eid)
          (f :: ftail) = some f :=
        List.find?_cons_of_pos ftail (by simpa using hpred)
      unfold anyOfResult
      rw [hfind]
    · intro x hx
      have hxf : x ∈ f :: ftail := hperm.mem_iff.mpr hx
      rcases List.mem_cons.mp hxf with hxe | hxr
      · subst hxe; exact le_refl _
      · exact (List.pairwise_cons.mp hsort).1 x hxr |>.1
    · exact ⟨f, hfmem, rfl⟩
    · intro x hx hxt
      have hxf : x ∈ f :: ftail := hperm.mem_iff.mpr hx
      refine List.mem_map.mpr ⟨x, ?_, rfl⟩
      refine List.mem_filter.mpr ⟨hxf, ?_⟩
      have hxpred : ((pending.map (fun e => e.eid)).contains x.eid) = true := by
        simp only [List.contains_iff_exists_mem_beq, List.mem_map]
        exact ⟨x.eid, ⟨x, hx, rfl⟩, by simp⟩
      simp only [Bool.and_eq_true, decide_eq_true_eq]
      exact ⟨hxpred, hxt⟩
    · intro x hx hxt
      have hxf : x ∈ f :: ftail := hperm.mem_iff.mpr hx
      have hxpred : ((pending.map (fun e => e.eid)).contains x.eid) = true := by
        simp only [List.contains_iff_exists_mem_beq, List.mem_map]
        exact ⟨x.eid, ⟨x, hx, rfl⟩, by simp⟩
      have hmem : (x.eid, x.val) ∈
          ((f :: ftail).filter (fun x =>
            (pending.map (fun e => e.eid)).contains x.eid &&
              decide (x.fire_time = f.fire_time))).map
            (fun x => (x.eid, x.val)) := by
        refine List.mem_map.mpr ⟨x, ?_, rfl⟩
        refine List.mem_filter.mpr ⟨hxf, ?_⟩
        simp only [Bool.and_eq_true, decide_eq_true_eq]
        exact ⟨hxpred, hxt⟩
      unfold addWorkersStep
      refine List.mem_append.mpr (Or.inr ?_)
      exact List.mem_map.mpr ⟨(x.eid, x.val), hmem, rfl⟩

/-! ## Resource Store (spec sections 3 and 4.5) -/

/-- Modelled from the spec: the Resource Store state (spec section 3) —
`available` tokens, the FIFO queue `pending_gets` of waiting requesters —
extended with a log `grants` of `(getter, token)` pairs in the order the
requests were satisfied. -/
structure StoreState where
  available : List ℕ
  pending_gets : List ℕ
  grants : List (ℕ × ℕ)
deriving DecidableEq

/-- An operation against the Store: a `get` by a requester, a `put` of a
token, or the cancellation of a requester's pending `get` (the requester
lost its race against a Timeout). -/
inductive StoreOp where
  | get (g : ℕ)
  | put (t : ℕ)
  | cancel (g : ℕ)
deriving DecidableEq

/-- Modelled from the spec (section 4.5): a `get` is satisfied immediately
from `available` (FIFO) or queued in `pending_gets`; a `put` hands the
token directly to the longest-waiting pending getter or appends it to
`available`; cancelling a `get` removes that requester from
`pending_gets`, atomically with the race resolution. -/
def storeStep (s : StoreState) : StoreOp → StoreState
  | .get g =>
    match s.available with
    | t :: rest =>
      { s with available := rest, grants := s.grants ++ [(g, t)] }
    | [] => { s with pending_gets := s.pending_gets ++ [g] }
  | .put t =>
    match s.pending_gets with
    | g :: rest =>
      { s with pending_gets := rest, grants := s.grants ++ [(g, t)] }
    | [] => { s with available := s.available ++ [t] }
  | .cancel g =>
    { s with pending_gets := s.pending_gets.filter (fun x => x ≠ g) }

/-- Runs a sequence of store operations. -/
def storeRun (s : StoreState) : List StoreOp → StoreState
  | [] => s
  | op :: ops => storeRun (storeStep s op) ops

theorem storeRun_append (s : StoreState) (l1 l2 : List StoreOp) :
    storeRun s (l1 ++ l2) = storeRun (storeRun s l1) l2 := by
  induction l1 generalizing s with
  | nil => rfl
  | cons op ops ih => simp [storeRun, ih]

/-- C2: requesters A, B, C issue `get()` in that order on an empty store;
whatever three tokens are then `put`, and in whatever order, A is
satisfied first, then B, then C — the i-th put's token goes to the i-th
requester. -/
theorem store_fifo_abc (A B C : ℕ) (ts : List ℕ) (h : ts.length = 3) :
    (storeRun ⟨[], [], []⟩
      ([.get A, .get B, .get C] ++ ts.map StoreOp.put)).grants =
      List.zip [A, B, C] ts := by
  obtain ⟨t1, t2, t3, rfl⟩ := List.length_eq_three.mp h
  rfl

theorem store_cancelled_never_granted (ops : List StoreOp) :
    ∀ (s : StoreState) (g : ℕ), g ∉ s.pending_gets →
      (∀ op ∈ ops, op ≠ .get g) →
      ∀ t, (g, t) ∈ (storeRun s ops).grants → (g, t) ∈ s.grants := by
  induction ops with
  | nil => intro s g _ _ t ht; exact ht
  | cons op rest ih =>
    intro s g hg hops t ht
    have hop : op ≠ .get g := hops op (List.mem_cons_self _ _)
    have hrest : ∀ o ∈ rest, o ≠ .get g := fun o ho =>
      hops o (List.mem_cons_of_mem _ ho)
    have hstep : g ∉ (storeStep s op).pending_gets ∧
        ∀ u, (g, u) ∈ (storeStep s op).grants → (g, u) ∈ s.grants := by
      cases op with
      | get g' =>
        have hne : g' ≠ g := fun h => hop (by rw [h])
        cases hav : s.available with
        | nil =>
          constructor
          · simp only [storeStep, hav, List.mem_append, List.mem_singleton]
            rintro (h | h)
            · exact hg h
            · exact hne h.symm
          · intro u hu
            simpa only [storeStep, hav] using hu
        | cons t' av' =>
          constructor
          · simp only [storeStep, hav]
            exact hg
          · intro u hu
            simp only [storeStep, hav, List.mem_append,
              List.mem_singleton] at hu
            rcases hu with hu | hu
            · exact hu
            · exact absurd (congrArg Prod.fst hu) hne.symm
      | put t' =>
        cases hp : s.pending_gets with
        | nil =>
          constructor
          · simp [storeStep, hp]
          · intro u hu
            simpa only [storeStep, hp] using hu
        | cons h0 rest' =>
          rw [hp] at hg
          have hgh : g ≠ h0 := fun h => hg (h ▸ List.mem_cons_self _ _)
          constructor
          · simp only [storeStep, hp]
            exact fun h => hg (List.mem_cons_of_mem _ h)
          · intro u hu
            simp only [storeStep, hp, List.mem_append,
              List.mem_singleton] at hu
            rcases hu with hu | hu
            · exact hu
            · exact absurd (congrArg Prod.fst hu) hgh
      | cancel g' =>
        constructor
        · simp only [storeStep, List.mem_filter]
          exact fun h => hg h.1
        · exact fun u hu => hu
    rw [storeRun] at ht
    exact hstep.2 t (ih (storeStep s op) g hstep.1 hrest t ht)

/-- K cancelling getters (odd ids `2*i+1`): each issues a `get` and then
loses its race against its patience Timeout, so its pending `get` is
cancelled. -/
def cancelPhase : ℕ → List StoreOp
  | 0 => []
  | k + 1 => .get (2 * k + 1) :: .cancel (2 * k + 1) :: cancelPhase k

/-- N cycles of the single token `7`: a non-cancelling getter (even id
`2*j`) issues a `get`, then the token comes back with a `put` and
satisfies it. -/
def servePhase : ℕ → List StoreOp
  | 0 => []
  | n + 1 => .get (2 * n) :: .put 7 :: servePhase n

/-- The whole run: K cancelling getters, then N token cycles. -/
def cancelRaceRun (n k : ℕ) : List StoreOp :=
  cancelPhase k ++ servePhase n

/-- Grants received by cancelling getters (odd ids). -/
def cancelledGrants (s : StoreState) : ℕ :=
  (s.grants.filter (fun p => p.1 % 2 = 1)).length

/-- Grants received by non-cancelling getters (even ids). -/
def succeededGrants (s : StoreState) : ℕ :=
  (s.grants.filter (fun p => p.1 % 2 = 0)).length

theorem cancelPhase_id (k : ℕ) (gs : List (ℕ × ℕ)) :
    storeRun ⟨[], [], gs⟩ (cancelPhase k) = ⟨[], [], gs⟩ := by
  induction k with
  | zero => rfl
  | succ k ih =>
    show storeRun _ (.get (2 * k + 1) :: .cancel (2 * k + 1) ::
      cancelPhase k) = _
    rw [storeRun, storeRun]
    have h1 : storeStep (⟨[], [], gs⟩ : StoreState) (.get (2 * k + 1)) =
        ⟨[], [2 * k + 1], gs⟩ := rfl
    rw [h1]
    have h2 : storeStep (⟨[], [2 * k + 1], gs⟩ : StoreState)
        (.cancel (2 * k + 1)) = ⟨[], [], gs⟩ := by
      simp [storeStep]
    rw [h2, ih]

/-- The grants produced by `servePhase n`, newest first in issue order. -/
def serveGrantsList : ℕ → List (ℕ × ℕ)
  | 0 => []
  | n + 1 => (2 * n, 7) :: serveGrantsList n

theorem servePhase_grants (n : ℕ) :
    ∀ gs : List (ℕ × ℕ),
      storeRun ⟨[], [], gs⟩ (servePhase n) =
        ⟨[], [], gs ++ serveGrantsList n⟩ := by
  induction n with
  | zero => intro gs; simp [servePhase, storeRun, serveGrantsList]
  | succ n ih =>
    intro gs
    show storeRun _ (.get (2 * n) :: .put 7 :: servePhase n) = _
    rw [storeRun, storeRun]
    have h1 : storeStep (⟨[], [], gs⟩ : StoreState) (.get (2 * n)) =
        ⟨[], [2 * n], gs⟩ := rfl
    rw [h1]
    have h2 : storeStep (⟨[], [2 * n], gs⟩ : StoreState) (.put 7) =
        ⟨[], [], gs ++ [(2 * n, 7)]⟩ := rfl
    rw [h2, ih]
    simp [serveGrantsList]

theorem serveGrantsList_counts (n : ℕ) :
    (serveGrantsList n).filter (fun p => p.1 % 2 = 1) = [] ∧
      ((serveGrantsList n).filter (fun p => p.1 % 2 = 0)).length = n := by
  induction n with
  | zero => simp [serveGrantsList]
  | succ n ih =>
    constructor
    · simp [serveGrantsList, Nat.mul_mod_right, ih.1]
    · simp [serveGrantsList, Nat.mul_mod_right, ih.2]

/-- C1: cancel-safety of `Store.get`.  Cancelling a pending `get` removes
the requester from `pending_gets`; afterwards, under any operation
sequence in which that requester issues no new `get`, it never receives a
token it did not already hold; and in the run with N cycles of one token
and K > N cancelling getters, exactly the N non-cancelled getters succeed
and zero cancelled ones do. -/
theorem store_get_cancel_safety
    (s : StoreState) (g : ℕ) (ops : List StoreOp) (t : ℕ)
    (hops : ∀ op ∈ ops, op ≠ .get g) (hnew : (g, t) ∉ s.grants)
    (N K : ℕ) (_hKN : N < K) :
    g ∉ (storeStep s (.cancel g)).pending_gets ∧
    (g, t) ∉ (storeRun (storeStep s (.cancel g)) ops).grants ∧
    cancelledGrants (storeRun ⟨[], [], []⟩ (cancelRaceRun N K)) = 0 ∧
    succeededGrants (storeRun ⟨[], [], []⟩ (cancelRaceRun N K)) = N := by
  have hpend : g ∉ (storeStep s (.cancel g)).pending_gets := by
    simp [storeStep, List.mem_filter]
  refine ⟨hpend, ?_, ?_, ?_⟩
  · intro hmem
    have hgr : (g, t) ∈ (storeStep s (.cancel g)).grants :=
      store_cancelled_never_granted ops (storeStep s (.cancel g)) g
        hpend hops t hmem
    exact hnew hgr
  · unfold cancelRaceRun
    rw [storeRun_append, cancelPhase_id, servePhase_grants]
    unfold cancelledGrants
    simp [(serveGrantsList_counts N).1]
  · unfold cancelRaceRun
    rw [storeRun_append, cancelPhase_id, servePhase_grants]
    unfold succeededGrants
    simp [(serveGrantsList_counts N).2]

/-! ## Process interruption (spec section 4.3; process_interaction.py) -/

/-- State of one process suspended on a timeout event: the timeout's
waiter list and the log of process resumptions
`(process, virtual time, received a failure)`. -/
structure IntState where
  waiters : List ℕ
  log : List (ℕ × ℚ × Bool)
deriving DecidableEq

/-- Modelled from the spec (section 4.3): delivery of one fired entry.
An interrupt entry (event id 2) forces the target, at its next resumption
point, to receive a failure instead of the awaited value, and removes the
interrupted process from the awaited event's waiter list; the timeout
entry (event id 1) fires as usual and resumes every waiter still
registered, delivering its value. -/
def interruptDeliver (pid : ℕ) (s : IntState) (e : Entry) : IntState :=
  if e.eid = 2 then
    if pid ∈ s.waiters then
      { waiters := s.waiters.filter (fun w => w ≠ pid),
        log := s.log ++ [(pid, e.fire_time, true)] }
    else s
  else
    { waiters := [],
      log := s.log ++ s.waiters.map (fun w => (w, e.fire_time, false)) }

/-- Deliver a whole fired-entry log in firing order. -/
def interruptRun (pid : ℕ) (s : IntState) (fired : List Entry) : IntState :=
  fired.foldl (interruptDeliver pid) s

/-- The `Car.run` / `driver` scenario (process_interaction.py lines 9-28):
the process suspends on a 5-time-unit Timeout (event id 1) and `driver`
interrupts it at virtual time 3 (event id 2). -/
def carScenario (pid : ℕ) : IntState :=
  interruptRun pid ⟨[pid], []⟩
    (run_until 20 0 [⟨5, 0, 1, 0⟩, ⟨3, 1, 2, 0⟩]).2

/-! ## Claim theorems for the domain code and remaining claims -/

/-- C5: when a worker finishes serving a customer, it fires its freed
event — and is thereby re-put into the shared store by `_free_workers` —
if and only if the current virtual time is strictly before the current
shift's end; otherwise there is no re-put.  The served client is recorded
either way. -/
theorem worker_refree_iff_before_shift_end
    (now when_end : ℚ) (store : List ℕ) (wid cid : ℕ) (clients : List ℕ) :
    ((serviceComplete now when_end clients cid).2 = true ↔ now < when_end) ∧
    freeWorkersStep store wid (serviceComplete now when_end clients cid).2 =
      (if now < when_end then store ++ [wid] else store) ∧
    (serviceComplete now when_end clients cid).1 = clients ++ [cid] := by
  refine ⟨by simp [serviceComplete], ?_, rfl⟩
  by_cases h : now < when_end <;>
    simp [serviceComplete, freeWorkersStep, h]

/-- C7: `succeed`/`fail` fire an event exactly once; either call on an
already-fired event always yields `DoubleFireError`, never being silently
ignored; the per-cycle fresh-event pattern of `Worker.work`/`Worker.service`
never trips it, while reusing the fired event does. -/
theorem event_double_fire_error :
    (∀ (e : DEvent ℕ) (v : ℕ), e.fired = true →
      e.succeed v = .error .doubleFire ∧ e.fail = .error .doubleFire) ∧
    (∀ (e : DEvent ℕ) (v : ℕ), e.fired = false →
      ∃ e', e.succeed v = .ok e' ∧ e'.fired = true) ∧
    (∀ wid n, ∃ l, workerFireCycles wid n (DEvent.fresh ℕ) = .ok l) ∧
    (∀ wid n, 2 ≤ n →
      workerFireCyclesReuse wid n (DEvent.fresh ℕ) =
        .error .doubleFire) := by
  refine ⟨?_, ?_, ?_, ?_⟩
  · intro e v hf
    constructor <;> simp [DEvent.succeed, DEvent.fail, hf]
  · intro e v hf
    exact ⟨⟨true, some v⟩, by simp [DEvent.succeed, hf], rfl⟩
  · intro wid n
    induction n with
    | zero => exact ⟨[], rfl⟩
    | succ n ih =>
      obtain ⟨l, hl⟩ := ih
      simp only [DEvent.fresh] at hl
      exact ⟨⟨true, some wid⟩ :: l,
        by simp [workerFireCycles, DEvent.succeed, DEvent.fresh, hl]⟩
  · intro wid n hn
    obtain ⟨m, rfl⟩ : ∃ m, n = m + 2 := ⟨n - 2, by omega⟩
    simp [workerFireCyclesReuse, DEvent.succeed, DEvent.fresh]

/-- C8: the process suspended on the 5-time-unit Timeout and interrupted
at virtual time 3 (as `Car.run` is by `driver`) is resumed exactly once —
at time 3, with the interruption failure — and is never resumed again at
time 5 by the original Timeout. -/
theorem interrupt_preempts_timeout (pid : ℕ) :
    (carScenario pid).log = [(pid, 3, true)] ∧
    ∀ fl : Bool, (pid, (5 : ℚ), fl) ∉ (carScenario pid).log := by
  have hfired : (run_until 20 0 [⟨5, 0, 1, 0⟩, ⟨3, 1, 2, 0⟩]).2 =
      [⟨3, 1, 2, 0⟩, ⟨5, 0, 1, 0⟩] := by decide
  have hlog : (carScenario pid).log = [(pid, 3, true)] := by
    unfold carScenario interruptRun
    rw [hfired]
    simp [interruptDeliver]
  refine ⟨hlog, ?_⟩
  intro fl hmem
  rw [hlog] at hmem
  simp only [List.mem_singleton, Prod.mk.injEq] at hmem
  have : (5 : ℚ) = 3 := hmem.2.1
  norm_num at this

/-- C9: satisfied plus unsatisfied clients always equals the total number
of clients — the unsatisfied count is the total minus the satisfied
count, so every client is counted exactly once. -/
theorem satisfied_plus_unsatisfied_eq_total (clients : List ClientR) :
    get_number_of_satisfied_clients clients +
      get_number_of_unsatisfied_clients clients =
      get_number_of_clients clients := by
  simp only [get_number_of_clients, get_number_of_satisfied_clients,
    get_number_of_unsatisfied_clients]
  have := List.length_filter_le (fun c => c.satisfied) clients
  omega

/-- C10: on an empty clients list `get_average_waiting_time` hits an
unguarded division by zero, whereas `get_average_total_time` is guarded
and returns 0 whenever no client is satisfied. -/
theorem avg_waiting_unguarded_avg_total_guarded :
    get_average_waiting_time [] = .error "ZeroDivisionError" ∧
    ∀ clients : List ClientR, (∀ c ∈ clients, c.satisfied = false) →
      get_average_total_time clients = .ok 0 := by
  constructor
  · rfl
  · intro clients hall
    unfold get_average_total_time
    have hfil : clients.filter (fun c => c.satisfied) = [] :=
      List.filter_eq_nil_iff.mpr (fun c hc => by simp [hall c hc])
    simp [hfil]

/-! ## Concrete witnesses -/

/-- Witness for C1 at a concrete run: requester 5 is cancelled and never
granted; with N = 1 token cycle and K = 2 cancelling getters, one even
getter succeeds and no odd one does. -/
theorem store_get_cancel_safety_witness :
    5 ∉ (storeStep ⟨[], [5], []⟩ (.cancel 5)).pending_gets ∧
    (5, 7) ∉ (storeRun (storeStep ⟨[], [5], []⟩ (.cancel 5))
      [.put 7, .get 4]).grants ∧
    cancelledGrants (storeRun ⟨[], [], []⟩ (cancelRaceRun 1 2)) = 0 ∧
    succeededGrants (storeRun ⟨[], [], []⟩ (cancelRaceRun 1 2)) = 1 :=
  store_get_cancel_safety ⟨[], [5], []⟩ 5 [.put 7, .get 4] 7
    (by decide) (by decide) 1 2 (by decide)

/-- Witness for C2 at a concrete run: tokens 10, 20, 30 go to A = 1,
B = 2, C = 3 in request order. -/
theorem store_fifo_abc_witness :
    (storeRun ⟨[], [], []⟩
      ([.get 1, .get 2, .get 3] ++ [10, 20, 30].map StoreOp.put)).grants =
      List.zip [1, 2, 3] [10, 20, 30] :=
  store_fifo_abc 1 2 3 [10, 20, 30] (by decide)

/-- Witness for C4 at T1 = 2, T2 = 3: the race fires at 2 reporting only
event 1. -/
theorem race_min_tie_loser_witness :
    raceResult (run_until 10 0 [⟨2, 0, 1, 5⟩, ⟨3, 1, 2, 6⟩]).2 1 2 =
      some (min (2 : ℚ) 3,
        if (2 : ℚ) = 3 then [1, 2] else if (2 : ℚ) < 3 then [1] else [2]) :=
  (race_min_tie_loser 2 3 10 5 6 (by norm_num) (by norm_num)).1

/-- Witness for C6 at two workers both starting at time 4: both are
reported and both end up in the store. -/
theorem anyOf_reports_all_simultaneous_witness :
    ∃ t rep,
      anyOfResult (run_until 10 0 [⟨4, 0, 1, 11⟩, ⟨4, 1, 2, 12⟩]).2
        (List.map (fun e => e.eid)
          ([⟨4, 0, 1, 11⟩, ⟨4, 1, 2, 12⟩] : List Entry)) = some (t, rep) ∧
      (∀ x ∈ ([⟨4, 0, 1, 11⟩, ⟨4, 1, 2, 12⟩] : List Entry),
        t ≤ x.fire_time) ∧
      (∃ x ∈ ([⟨4, 0, 1, 11⟩, ⟨4, 1, 2, 12⟩] : List Entry),
        x.fire_time = t) ∧
      (∀ x ∈ ([⟨4, 0, 1, 11⟩, ⟨4, 1, 2, 12⟩] : List Entry),
        x.fire_time = t → (x.eid, x.val) ∈ rep) ∧
      (∀ x ∈ ([⟨4, 0, 1, 11⟩, ⟨4, 1, 2, 12⟩] : List Entry),
        x.fire_time = t → x.val ∈ addWorkersStep [] rep) :=
  anyOf_reports_all_simultaneous 10 0 [⟨4, 0, 1, 11⟩, ⟨4, 1, 2, 12⟩] []
    (by decide) (by decide)

/-- Witness for C7: a second fire on a fired event errors, and a
two-cycle event reuse errors. -/
theorem event_double_fire_error_witness :
    DEvent.succeed ⟨true, some 5⟩ 3 = .error .doubleFire ∧
    workerFireCyclesReuse 1 2 (DEvent.fresh ℕ) = .error .doubleFire :=
  ⟨(event_double_fire_error.1 ⟨true, some 5⟩ 3 rfl).1,
    event_double_fire_error.2.2.2 1 2 (by decide)⟩

/-- Witness for C10: one unsatisfied client gives average total time 0. -/
theorem avg_waiting_unguarded_avg_total_guarded_witness :
    get_average_total_time [⟨false, 1, 2⟩] = .ok 0 :=
  avg_waiting_unguarded_avg_total_guarded.2 [⟨false, 1, 2⟩]
    (fun c hc => by rcases List.mem_singleton.mp hc with rfl; rfl)
